import Mathlib

/-!
# Verification of the Rummikub game engine (rummikub_game.py)

Shallow embedding of the rule/placement engine of `src/rummikub_game.py`:
the meld validator (`update_values`), the validation pass with commit and
rollback (`check_logic`), the opponent heuristic (`play_ai_turn`,
`add_tile_to_ai`), the game-end test (`update_blit`), the initial deal
(`draw_initial_tiles`), and a key-level conservation model of all the
operations that move tile keys between the two player dictionaries, the
game-object dictionary (board/display state) and the conceptual pool.

Tile keys are asset paths in the source; they are modelled as natural
numbers.  Pixel positions are modelled as pairs of naturals; the claims
only assign and compare positions, never do arithmetic on them.
-/

namespace Rummikub

/-! ## Validator state model

`check_logic` builds, for each candidate cluster found on the board, a dict
`card_number : key -> (card, color, value)` where `card` is the tile number
parsed from the key, `color` the color digit parsed from the key, and
`value` the `(x, y)` position of the tile captured at scan time.  An
`Entry` is one such dict item.

A `Tile` records, for one tile key, the position stored in
`game_object_database` (`cur`, the on-screen position) and the position
stored in `image_database` (`snap`, the last committed snapshot used for
rollback).  The board state is the list of all tile entries of
`game_object_database`.
-/

structure Entry where
  id : Nat
  number : Nat
  color : Nat
  pos : Nat × Nat
deriving DecidableEq

structure Tile where
  id : Nat
  cur : Nat × Nat
  snap : Nat × Nat
deriving DecidableEq

abbrev Cluster := List Entry

abbrev BoardState := List Tile

/-- The last element of a list of numbers, default 0 for the empty list.
In the source the lists indexed by `[-1]` are never empty, because
`update_values` is only reached with clusters of size 3 to 5. -/
def lastNum : List Nat → Nat
  | [] => 0
  | [a] => a
  | _ :: b :: l => lastNum (b :: l)

/-- The pairwise loop of `all_even_numbers_satisfied` in `update_values`
(`src/rummikub_game.py` lines 874-882): for each adjacent pair, the flag
becomes false when `current_value % 2 != 0 or (current_value >= next_value
and current_value + 2 != next_value)`. -/
def evenPairsOk : List Nat → Bool
  | a :: b :: l =>
    if a % 2 ≠ 0 ∨ (a ≥ b ∧ a + 2 ≠ b) then false else evenPairsOk (b :: l)
  | _ => true

/-- The pairwise loop of `all_odd_numbers_satisfied` (lines 887-896): the
flag becomes false when `current_value % 2 == 0 or (current_value >=
next_value and current_value + 2 != next_value)`. -/
def oddPairsOk : List Nat → Bool
  | a :: b :: l =>
    if a % 2 = 0 ∨ (a ≥ b ∧ a + 2 ≠ b) then false else oddPairsOk (b :: l)
  | _ => true

/-- `all_even_numbers_satisfied` of `update_values`: the pairwise loop plus
the final check `if int(even_values[-1][0]) % 2 != 0` (line 884). -/
def all_even_numbers_satisfied (nums : List Nat) : Bool :=
  evenPairsOk nums && decide (lastNum nums % 2 = 0)

/-- `all_odd_numbers_satisfied` of `update_values`: the pairwise loop plus
the final check `if int(odd_values[-1][0]) % 2 == 0` (line 898). -/
def all_odd_numbers_satisfied (nums : List Nat) : Bool :=
  oddPairsOk nums && decide (lastNum nums % 2 ≠ 0)

/-- The acceptance condition of `update_values` (lines 863-902).  Note the
Python operator precedence on line 901-902:
`(A and B) or (C and D or E)` parses as `(A and B) or ((C and D) or E)`,
so `all_odd_numbers_satisfied` alone suffices, without the same-color
condition.  The empty case cannot occur in the source (`next(iter(...))`
is only reached for clusters of size 3 to 5). -/
def update_values_accept : List Entry → Bool
  | [] => false
  | v0 :: rest =>
    let nums := (v0 :: rest).map Entry.number
    let allSameNumbers := (v0 :: rest).all (fun v => v.number == v0.number)
    let allDifferentColor := rest.all (fun v => v.color != v0.color)
    let allSameColor := rest.all (fun v => v.color == v0.color)
    (allSameNumbers && allDifferentColor) ||
      ((allSameColor && all_even_numbers_satisfied nums) ||
        all_odd_numbers_satisfied nums)

/-- The commit branch of `update_values` (lines 903-919): for every key of
the accepted cluster, the captured position `item_value[2]` is written both
to `game_object_database` (`cur`) and to `image_database` (`snap`). -/
def commitTile (c : Cluster) (t : Tile) : Tile :=
  match c.find? (fun e => e.id == t.id) with
  | some e => { t with cur := e.pos, snap := e.pos }
  | none => t

def commitCluster (st : BoardState) (c : Cluster) : BoardState :=
  st.map (commitTile c)

/-- The rollback branch of `update_values` (lines 921-935) and of
`check_logic` (lines 961-974 and 980-993): every tile position in
`game_object_database` is restored from `image_database`. -/
def rollbackTile (t : Tile) : Tile :=
  { t with cur := t.snap }

def rollbackAll (st : BoardState) : BoardState :=
  st.map rollbackTile

/-- `update_values` (lines 849-935): accept and commit, or reject and roll
back every tile to its snapshot. -/
def update_values (st : BoardState) (c : Cluster) : BoardState × Bool :=
  if update_values_accept c then (commitCluster st c, true)
  else (rollbackAll st, false)

/-- The loop `for check in check_sum: status.append(self.update_values(check))`
of `check_logic` (lines 975-977). -/
def runChecks : BoardState → List Cluster → BoardState × List Bool
  | st, [] => (st, [])
  | st, c :: cs =>
    let r := update_values st c
    let rest := runChecks r.1 cs
    (rest.1, r.2 :: rest.2)

/-- `len(perm_value) in range(3, 6)` (line 950). -/
def cluster_size_ok (c : Cluster) : Bool :=
  decide (3 ≤ c.length) && decide (c.length < 6)

/-- The `check_sum` construction (lines 959-960): a cluster dict is appended
only when it is not already in `check_sum`, so the list keeps the first
occurrence of each cluster. -/
def firstDedupAux [DecidableEq α] (seen : List α) : List α → List α
  | [] => []
  | c :: cs =>
    if c ∈ seen then firstDedupAux seen cs
    else c :: firstDedupAux (seen ++ [c]) cs

def firstDedup [DecidableEq α] (l : List α) : List α :=
  firstDedupAux [] l

/-- `check_logic` (lines 937-994), given the candidate clusters produced by
`get_tile_by_position`.  Returns the new board state, the `status` list,
and whether `play_ai_turn(True)` is triggered (`if all(status)`).

The size test `all(len(perm_value) in range(3, 6) for perm_value in
permutation_values)` (line 950) does not depend on the loop variable, so
either every cluster is collected into `check_sum`, or every iteration
runs the rollback branch (rollback is idempotent, so running it once is
equivalent).  With no cluster at all (`permutation_values` falsy), only
the rollback branch at lines 980-993 runs and the AI is not triggered;
with a bad-sized cluster, `status` stays `[]` and `all([]) == True`
triggers the AI. -/
def check_logic (st : BoardState) (clusters : List Cluster) :
    BoardState × List Bool × Bool :=
  if clusters.isEmpty then (rollbackAll st, [], false)
  else if clusters.all cluster_size_ok then
    let r := runChecks st (firstDedup clusters)
    (r.1, r.2, r.2.all id)
  else (rollbackAll st, [], true)

/-! ## Characterization of the acceptance condition (claim C2) -/

lemma lastNum_cons_cons (a b : Nat) (t : List Nat) :
    lastNum (a :: b :: t) = lastNum (b :: t) := rfl

lemma all_even_iff (a : Nat) (l : List Nat) :
    all_even_numbers_satisfied (a :: l) = true ↔
      (List.Chain' (· < ·) (a :: l) ∧ ∀ n ∈ a :: l, n % 2 = 0) := by
  induction l generalizing a with
  | nil =>
    simp [all_even_numbers_satisfied, evenPairsOk, lastNum]
  | cons b t ih =>
    by_cases h : a % 2 ≠ 0 ∨ (a ≥ b ∧ a + 2 ≠ b)
    · constructor
      · intro habs
        exfalso
        simp [all_even_numbers_satisfied, evenPairsOk] at habs
        obtain ⟨⟨⟨ha, hor⟩, _⟩, _⟩ := habs
        rcases h with h | ⟨h1, h2⟩
        · exact h ha
        · rcases hor with h3 | h3 <;> omega
      · rintro ⟨hch, he⟩
        exfalso
        rw [List.chain'_cons] at hch
        have hab : a < b := hch.1
        have ha : a % 2 = 0 := he a (by simp)
        rcases h with h | ⟨h1, h2⟩
        · exact h ha
        · omega
    · have h0 := h
      push_neg at h
      obtain ⟨ha, hb⟩ := h
      have hab : a < b := by
        rcases Nat.lt_or_ge a b with hab | hab
        · exact hab
        · have := hb hab; omega
      have hunf : all_even_numbers_satisfied (a :: b :: t) =
          all_even_numbers_satisfied (b :: t) := by
        simp [all_even_numbers_satisfied, evenPairsOk, lastNum_cons_cons, ha,
          show ¬b ≤ a from by omega]
      rw [hunf, ih b]
      constructor
      · rintro ⟨hch, he⟩
        refine ⟨List.chain'_cons.mpr ⟨hab, hch⟩, ?_⟩
        intro n hn
        rcases List.mem_cons.mp hn with hn | hn
        · subst hn; exact ha
        · exact he n hn
      · rintro ⟨hch, he⟩
        exact ⟨(List.chain'_cons.mp hch).2, fun n hn => he n (List.mem_cons_of_mem a hn)⟩

lemma all_odd_iff (a : Nat) (l : List Nat) :
    all_odd_numbers_satisfied (a :: l) = true ↔
      (List.Chain' (· < ·) (a :: l) ∧ ∀ n ∈ a :: l, n % 2 = 1) := by
  induction l generalizing a with
  | nil =>
    simp only [all_odd_numbers_satisfied, oddPairsOk, lastNum, List.chain'_singleton,
      true_and, Bool.true_and, List.mem_singleton, decide_eq_true_eq]
    constructor
    · intro hh
      intro n hn; subst hn; omega
    · intro hh
      have := hh a rfl; omega
  | cons b t ih =>
    by_cases h : a % 2 = 0 ∨ (a ≥ b ∧ a + 2 ≠ b)
    · constructor
      · intro habs
        exfalso
        simp [all_odd_numbers_satisfied, oddPairsOk] at habs
        obtain ⟨⟨⟨ha, hor⟩, _⟩, _⟩ := habs
        rcases h with h | ⟨h1, h2⟩
        · omega
        · rcases hor with h3 | h3 <;> omega
      · rintro ⟨hch, he⟩
        exfalso
        rw [List.chain'_cons] at hch
        have hab : a < b := hch.1
        have ha : a % 2 = 1 := he a (by simp)
        rcases h with h | ⟨h1, h2⟩
        · omega
        · omega
    · have h0 := h
      push_neg at h
      obtain ⟨ha, hb⟩ := h
      have hab : a < b := by
        rcases Nat.lt_or_ge a b with hab | hab
        · exact hab
        · have := hb hab; omega
      have hunf : all_odd_numbers_satisfied (a :: b :: t) =
          all_odd_numbers_satisfied (b :: t) := by
        simp [all_odd_numbers_satisfied, oddPairsOk, lastNum_cons_cons,
          show a % 2 = 1 from by omega, show ¬b ≤ a from by omega]
      rw [hunf, ih b]
      constructor
      · rintro ⟨hch, he⟩
        refine ⟨List.chain'_cons.mpr ⟨hab, hch⟩, ?_⟩
        intro n hn
        rcases List.mem_cons.mp hn with hn | hn
        · subst hn; omega
        · exact he n hn
      · rintro ⟨hch, he⟩
        exact ⟨(List.chain'_cons.mp hch).2, fun n hn => he n (List.mem_cons_of_mem a hn)⟩

/-- Following the words of the spec: a legal Group is 3 to 5 tiles all
sharing the same number, with pairwise distinct colors. -/
def spec_legal_group (c : List Entry) : Prop :=
  3 ≤ c.length ∧ c.length ≤ 5 ∧
    (∀ e ∈ c, ∀ f ∈ c, e.number = f.number) ∧ (c.map Entry.color).Nodup

/-- Following the words of the spec: a legal Run is 3 to 5 tiles all
sharing the same color, with numbers strictly increasing by 1, contiguous. -/
def spec_legal_run (c : List Entry) : Prop :=
  3 ≤ c.length ∧ c.length ≤ 5 ∧
    (∀ e ∈ c, ∀ f ∈ c, e.color = f.color) ∧
    List.Chain' (fun a b => b = a + 1) (c.map Entry.number)

instance (c : List Entry) : Decidable (spec_legal_group c) :=
  inferInstanceAs (Decidable (3 ≤ c.length ∧ c.length ≤ 5 ∧
    (∀ e ∈ c, ∀ f ∈ c, e.number = f.number) ∧ (c.map Entry.color).Nodup))

instance (c : List Entry) : Decidable (spec_legal_run c) :=
  inferInstanceAs (Decidable (3 ≤ c.length ∧ c.length ≤ 5 ∧
    (∀ e ∈ c, ∀ f ∈ c, e.color = f.color) ∧
    List.Chain' (fun a b => b = a + 1) (c.map Entry.number)))

/-- C2 (amended): the validator of `update_values` accepts a nonempty
cluster exactly when (all tiles share the first tile's number and every
later tile's color differs from the first tile's color), or (every later
tile shares the first tile's color and the numbers are all even and
strictly increasing), or (the numbers are all odd and strictly increasing,
with no condition at all on the colors).  In particular it does not
implement the spec's Group/Run classification: colors need only differ
from the first tile, runs need not be contiguous step-1 sequences, and the
all-odd case ignores colors entirely. -/
theorem c2_update_values_accept_iff (v0 : Entry) (rest : List Entry) :
    update_values_accept (v0 :: rest) = true ↔
      (((∀ e ∈ v0 :: rest, e.number = v0.number) ∧
          (∀ e ∈ rest, e.color ≠ v0.color)) ∨
        ((∀ e ∈ rest, e.color = v0.color) ∧
          List.Chain' (· < ·) (v0.number :: rest.map Entry.number) ∧
          (∀ n ∈ v0.number :: rest.map Entry.number, n % 2 = 0)) ∨
        (List.Chain' (· < ·) (v0.number :: rest.map Entry.number) ∧
          (∀ n ∈ v0.number :: rest.map Entry.number, n % 2 = 1))) := by
  simp only [update_values_accept, Bool.or_eq_true, Bool.and_eq_true, List.all_eq_true,
    beq_iff_eq, bne_iff_ne, List.map_cons, all_even_iff, all_odd_iff]

/-- C2 (counterexample): the cluster RED-1, RED-2, RED-3 is a legal Run in
the sense of the spec (same color, numbers strictly increasing by 1,
length 3), yet `update_values` rejects it; so the claim that the validator
accepts exactly the legal Groups and legal Runs is false on the code. -/
theorem c2_counterexample :
    ¬ (update_values_accept
          [⟨1, 1, 4, (0, 0)⟩, ⟨2, 2, 4, (52, 0)⟩, ⟨3, 3, 4, (104, 0)⟩] = true ↔
        (spec_legal_group [⟨1, 1, 4, (0, 0)⟩, ⟨2, 2, 4, (52, 0)⟩, ⟨3, 3, 4, (104, 0)⟩] ∨
          spec_legal_run [⟨1, 1, 4, (0, 0)⟩, ⟨2, 2, 4, (52, 0)⟩, ⟨3, 3, 4, (104, 0)⟩])) := by
  intro h
  have hrun : spec_legal_run
      [⟨1, 1, 4, (0, 0)⟩, ⟨2, 2, 4, (52, 0)⟩, ⟨3, 3, 4, (104, 0)⟩] := by
    refine ⟨by decide, by decide, by decide, ?_⟩
    exact .cons rfl (.cons rfl .nil)
  have hacc : update_values_accept
      [⟨1, 1, 4, (0, 0)⟩, ⟨2, 2, 4, (52, 0)⟩, ⟨3, 3, 4, (104, 0)⟩] = false := by decide
  have htrue := h.mpr (Or.inr hrun)
  rw [hacc] at htrue
  exact Bool.noConfusion htrue

/-! ## Rollback on bad cluster sizes (claim C3) -/

lemma rollbackAll_cur_eq_snap (st : BoardState) : ∀ t ∈ rollbackAll st, t.cur = t.snap := by
  intro t ht
  obtain ⟨u, _, rfl⟩ := List.mem_map.mp ht
  rfl

/-- C3: for every validation pass in which some candidate cluster has size
outside [3,5], `check_logic` accepts nothing (the `status` list stays
empty, so no cluster is committed) and the whole pending transaction is
rolled back: every tile position in `game_object_database` is restored
from the `image_database` snapshot.  (`all([])` being `True`, the source
then still triggers the opponent turn, the third component.) -/
theorem c3_bad_size_rolls_back (st : BoardState) (clusters : List Cluster)
    (hne : clusters ≠ [])
    (hbad : ∃ c ∈ clusters, ¬ (3 ≤ c.length ∧ c.length ≤ 5)) :
    check_logic st clusters = (rollbackAll st, [], true) ∧
      ∀ t ∈ (check_logic st clusters).1, t.cur = t.snap := by
  have hball : clusters.all cluster_size_ok = false := by
    obtain ⟨c, hc, hlen⟩ := hbad
    refine List.all_eq_false.mpr ⟨c, hc, ?_⟩
    simp only [cluster_size_ok, Bool.and_eq_true, decide_eq_true_eq, not_and]
    omega
  have hret : check_logic st clusters = (rollbackAll st, [], true) := by
    simp [check_logic, hne, hball]
  refine ⟨hret, ?_⟩
  rw [hret]
  exact rollbackAll_cur_eq_snap st

def c3_st : BoardState := [⟨1, (5, 5), (100, 600)⟩, ⟨2, (57, 5), (162, 600)⟩]

def c3_clusters : List Cluster := [[⟨1, 7, 1, (5, 5)⟩, ⟨2, 8, 1, (57, 5)⟩]]

theorem c3_witness :
    check_logic c3_st c3_clusters = (rollbackAll c3_st, [], true) :=
  (c3_bad_size_rolls_back c3_st c3_clusters (by decide) (by decide)).1

/-! ## Partial commit on a failing transaction (claim C1) -/

/-- A transaction with one cluster the validator accepts (a proper Group:
three 5s in distinct colors, moved from rack row y = 600 onto board row
y = 0) and one cluster it rejects (numbers 2,2,3), in that scan order. -/
def c1_st : BoardState :=
  [⟨1, (0, 0), (100, 600)⟩, ⟨2, (52, 0), (162, 600)⟩, ⟨3, (104, 0), (224, 600)⟩,
    ⟨4, (0, 73), (286, 600)⟩, ⟨5, (52, 73), (348, 600)⟩, ⟨6, (104, 73), (410, 600)⟩]

def c1_A : Cluster := [⟨1, 5, 1, (0, 0)⟩, ⟨2, 5, 2, (52, 0)⟩, ⟨3, 5, 3, (104, 0)⟩]

def c1_B : Cluster := [⟨4, 2, 1, (0, 73)⟩, ⟨5, 2, 1, (52, 73)⟩, ⟨6, 3, 1, (104, 73)⟩]

/-- C1 (counterexample): on the transaction `c1_A`, `c1_B`, validation
fails (`status = [true, false]`), yet tile 1 — which belongs to the valid
cluster `c1_A` — ends at its proposed board position (0,0) and not at its
pre-transaction snapshot position (100,600): the commit of `c1_A`
(including its snapshot update) survives the failure of `c1_B`, so the
pass is not all-or-nothing. -/
theorem c1_counterexample :
    (check_logic c1_st [c1_A, c1_B]).2.1 = [true, false] ∧
      ((check_logic c1_st [c1_A, c1_B]).1.head?.map Tile.cur) = some (0, 0) ∧
      (c1_st.head?.map Tile.snap) = some (100, 600) ∧
      ((0, 0) : Nat × Nat) ≠ (100, 600) := by
  refine ⟨by decide, by decide, by decide, by decide⟩

/-- C1 (amended): clusters are validated and committed one at a time, in
scan order.  With a transaction of an accepted cluster `A` followed by a
rejected cluster `B` (both of size 3 to 5), the pass fails, but the final
state commits every tile of `A` at its captured (proposed) position — in
`game_object_database` and in the `image_database` snapshot alike — while
every other tile is rolled back to its old snapshot.  Only the tiles
outside the accepted cluster return to their pre-transaction positions. -/
theorem c1_amended (st : BoardState) (A B : Cluster)
    (hsA : cluster_size_ok A = true) (hsB : cluster_size_ok B = true)
    (hA : update_values_accept A = true) (hB : update_values_accept B = false) :
    check_logic st [A, B] =
      (st.map (fun t =>
          match A.find? (fun e => e.id == t.id) with
          | some e => { t with cur := e.pos, snap := e.pos }
          | none => { t with cur := t.snap }),
        [true, false], false) := by
  have hBA : ¬ B = A := by
    intro h
    rw [h, hA] at hB
    exact Bool.noConfusion hB
  have hdedup : firstDedup [A, B] = [A, B] := by
    simp [firstDedup, firstDedupAux, hBA]
  have hrun : runChecks st [A, B] =
      (rollbackAll (commitCluster st A), [true, false]) := by
    simp [runChecks, update_values, hA, hB]
  have hstate : rollbackAll (commitCluster st A) =
      st.map (fun t =>
        match A.find? (fun e => e.id == t.id) with
        | some e => { t with cur := e.pos, snap := e.pos }
        | none => { t with cur := t.snap }) := by
    rw [rollbackAll, commitCluster, List.map_map]
    refine List.map_congr_left ?_
    intro t _
    cases hfind : A.find? (fun e => e.id == t.id) <;>
      simp [Function.comp, commitTile, rollbackTile, hfind]
  simp [check_logic, hsA, hsB, hdedup, hrun, hstate]

theorem c1_amended_witness :
    check_logic c1_st [c1_A, c1_B] =
      (c1_st.map (fun t =>
          match c1_A.find? (fun e => e.id == t.id) with
          | some e => { t with cur := e.pos, snap := e.pos }
          | none => { t with cur := t.snap }),
        [true, false], false) :=
  c1_amended c1_st c1_A c1_B (by decide) (by decide) (by decide) (by decide)

/-! ## Idempotence of validation on a committed board (claim C4) -/

def clusterIds (c : Cluster) : List Nat := c.map Entry.id

def idsOfClusters : List Cluster → List Nat
  | [] => []
  | c :: cs => clusterIds c ++ idsOfClusters cs

def commitAll (st : BoardState) (cs : List Cluster) : BoardState :=
  cs.foldl commitCluster st

def commitFun (cs : List Cluster) (t : Tile) : Tile :=
  cs.foldl (fun t c => commitTile c t) t

lemma commitTile_id (c : Cluster) (t : Tile) : (commitTile c t).id = t.id := by
  unfold commitTile
  cases c.find? (fun e => e.id == t.id) <;> rfl

lemma commitTile_of_not_mem (c : Cluster) (t : Tile) (h : t.id ∉ clusterIds c) :
    commitTile c t = t := by
  unfold commitTile
  have hfind : c.find? (fun e => e.id == t.id) = none := by
    refine List.find?_eq_none.mpr ?_
    intro e he
    simp only [beq_iff_eq]
    intro habs
    exact h (by simpa [clusterIds, List.mem_map] using ⟨e, he, habs⟩)
  rw [hfind]

lemma commitTile_idem (c : Cluster) (t : Tile) :
    commitTile c (commitTile c t) = commitTile c t := by
  unfold commitTile
  cases hfind : c.find? (fun e => e.id == t.id) with
  | none => rw [hfind]
  | some e => simp [hfind]

lemma commitFun_id (cs : List Cluster) (t : Tile) : (commitFun cs t).id = t.id := by
  induction cs generalizing t with
  | nil => rfl
  | cons c cs ih =>
    show (commitFun cs (commitTile c t)).id = t.id
    rw [ih, commitTile_id]

lemma commitFun_of_not_mem (cs : List Cluster) (t : Tile)
    (h : ∀ c ∈ cs, t.id ∉ clusterIds c) : commitFun cs t = t := by
  induction cs generalizing t with
  | nil => rfl
  | cons c cs ih =>
    show commitFun cs (commitTile c t) = t
    rw [commitTile_of_not_mem c t (h c (by simp)), ih]
    intro d hd
    exact h d (List.mem_cons_of_mem c hd)

lemma commitAll_eq_map (st : BoardState) (cs : List Cluster) :
    commitAll st cs = st.map (commitFun cs) := by
  induction cs generalizing st with
  | nil =>
    show st = st.map (fun t => t)
    simp
  | cons c cs ih =>
    show commitAll (commitCluster st c) cs = st.map (commitFun (c :: cs))
    rw [ih, commitCluster, List.map_map]
    rfl

lemma mem_idsOfClusters {a : Nat} {cs : List Cluster} {d : Cluster}
    (hd : d ∈ cs) (ha : a ∈ clusterIds d) : a ∈ idsOfClusters cs := by
  induction cs with
  | nil => cases hd
  | cons c cs ih =>
    rcases List.mem_cons.mp hd with h | h
    · subst h
      exact List.mem_append_left _ ha
    · exact List.mem_append_right _ (ih h)

lemma commitFun_idem (cs : List Cluster) (hnd : (idsOfClusters cs).Nodup) (t : Tile) :
    commitFun cs (commitFun cs t) = commitFun cs t := by
  induction cs generalizing t with
  | nil => rfl
  | cons c cs ih =>
    have hnd2 : (clusterIds c ++ idsOfClusters cs).Nodup := hnd
    rw [List.nodup_append] at hnd2
    obtain ⟨hc, hcs, hdisj⟩ := hnd2
    by_cases hmem : t.id ∈ clusterIds c
    · have hnot : ∀ d ∈ cs, (commitTile c t).id ∉ clusterIds d := by
        intro d hd habs
        rw [commitTile_id] at habs
        exact hdisj hmem (mem_idsOfClusters hd habs)
      have h1 : commitFun cs (commitTile c t) = commitTile c t :=
        commitFun_of_not_mem cs _ hnot
      show commitFun cs (commitTile c (commitFun cs (commitTile c t))) =
        commitFun cs (commitTile c t)
      rw [h1, commitTile_idem, h1]
    · show commitFun cs (commitTile c (commitFun cs (commitTile c t))) =
        commitFun cs (commitTile c t)
      rw [commitTile_of_not_mem c t hmem,
        commitTile_of_not_mem c _ (by rw [commitFun_id]; exact hmem)]
      exact ih hcs _

lemma commitAll_idem (st : BoardState) (cs : List Cluster)
    (hnd : (idsOfClusters cs).Nodup) :
    commitAll (commitAll st cs) cs = commitAll st cs := by
  rw [commitAll_eq_map, commitAll_eq_map, List.map_map]
  refine List.map_congr_left ?_
  intro t _
  simp only [Function.comp]
  exact commitFun_idem cs hnd t

lemma runChecks_snd (st : BoardState) (cs : List Cluster) :
    (runChecks st cs).2 = cs.map update_values_accept := by
  induction cs generalizing st with
  | nil => rfl
  | cons c cs ih =>
    by_cases h : update_values_accept c = true
    · simp [runChecks, update_values, h, ih]
    · rw [Bool.not_eq_true] at h
      simp [runChecks, update_values, h, ih]

lemma runChecks_fst_of_accept (st : BoardState) (cs : List Cluster)
    (hacc : ∀ c ∈ cs, update_values_accept c = true) :
    (runChecks st cs).1 = commitAll st cs := by
  induction cs generalizing st with
  | nil => rfl
  | cons c cs ih =>
    have hc := hacc c (by simp)
    have hstep : runChecks st (c :: cs) =
        ((runChecks (commitCluster st c) cs).1,
          true :: (runChecks (commitCluster st c) cs).2) := by
      simp [runChecks, update_values, hc]
    rw [hstep]
    exact ih (commitCluster st c) (fun d hd => hacc d (List.mem_cons_of_mem c hd))

lemma firstDedupAux_of_nodup [DecidableEq α] (seen l : List α) (hnd : l.Nodup)
    (hs : ∀ x ∈ l, x ∉ seen) : firstDedupAux seen l = l := by
  induction l generalizing seen with
  | nil => rfl
  | cons c cs ih =>
    obtain ⟨hcm, hcs⟩ := List.nodup_cons.mp hnd
    show (if c ∈ seen then firstDedupAux seen cs
      else c :: firstDedupAux (seen ++ [c]) cs) = c :: cs
    rw [if_neg (hs c (by simp))]
    congr 1
    refine ih (seen ++ [c]) hcs ?_
    intro x hx hmem
    rcases List.mem_append.mp hmem with h | h
    · exact hs x (List.mem_cons_of_mem c hx) h
    · rw [List.mem_singleton] at h
      subst h
      exact hcm hx

lemma firstDedup_of_nodup [DecidableEq α] (l : List α) (hnd : l.Nodup) :
    firstDedup l = l :=
  firstDedupAux_of_nodup [] l hnd (by simp)

lemma clusters_nodup_of_ids (cs : List Cluster) (hnd : (idsOfClusters cs).Nodup)
    (hne : ∀ c ∈ cs, c ≠ []) : cs.Nodup := by
  induction cs with
  | nil => simp
  | cons c cs ih =>
    have hnd2 : (clusterIds c ++ idsOfClusters cs).Nodup := hnd
    rw [List.nodup_append] at hnd2
    obtain ⟨hc, hcs, hdisj⟩ := hnd2
    rw [List.nodup_cons]
    constructor
    · intro habs
      have hcne := hne c (by simp)
      obtain ⟨e, he⟩ : ∃ e, e ∈ c := by
        cases c with
        | nil => exact absurd rfl hcne
        | cons e c0 => exact ⟨e, by simp⟩
      have hid : e.id ∈ clusterIds c := by
        simp only [clusterIds, List.mem_map]
        exact ⟨e, he, rfl⟩
      exact hdisj hid (mem_idsOfClusters habs hid)
    · exact ih hcs (fun d hd => hne d (List.mem_cons_of_mem c hd))

/-- C4: validation is idempotent on a committed board.  If a validation
pass over a fixed set of well-sized, tile-disjoint clusters fully succeeds
(`status` all true, which is the hypothesis that the board is committed
and unchanged), then running `check_logic` a second time on the resulting
state with the same clusters succeeds again with the same `status`,
triggers the opponent turn, and leaves every tile position (and snapshot)
exactly as it was: no mutation on the second call. -/
theorem c4_validate_idempotent (st : BoardState) (clusters : List Cluster)
    (hne : clusters ≠ [])
    (hsz : clusters.all cluster_size_ok = true)
    (hnd : (idsOfClusters clusters).Nodup)
    (hok : ((check_logic st clusters).2.1).all id = true) :
    check_logic ((check_logic st clusters).1) clusters =
      ((check_logic st clusters).1, (check_logic st clusters).2.1, true) := by
  have hnonempty : ∀ c ∈ clusters, c ≠ [] := by
    intro c hc habs
    have hq := List.all_eq_true.mp hsz c hc
    rw [habs] at hq
    simp [cluster_size_ok] at hq
  have hcnodup : clusters.Nodup := clusters_nodup_of_ids clusters hnd hnonempty
  have hded : firstDedup clusters = clusters := firstDedup_of_nodup clusters hcnodup
  have hisEmpty : clusters.isEmpty = false := by
    cases clusters with
    | nil => exact absurd rfl hne
    | cons _ _ => rfl
  have hcall1 : check_logic st clusters =
      ((runChecks st clusters).1, (runChecks st clusters).2,
        (runChecks st clusters).2.all id) := by
    simp [check_logic, hisEmpty, hsz, hded]
  have hall : (runChecks st clusters).2.all id = true := by
    rw [hcall1] at hok
    exact hok
  have hacc : ∀ c ∈ clusters, update_values_accept c = true := by
    intro c hc
    have h2 := hall
    rw [runChecks_snd] at h2
    rw [List.all_eq_true] at h2
    simpa using h2 (update_values_accept c) (List.mem_map.mpr ⟨c, hc, rfl⟩)
  have hfst : (runChecks st clusters).1 = commitAll st clusters :=
    runChecks_fst_of_accept st clusters hacc
  have hfix : (runChecks ((runChecks st clusters).1) clusters).1 =
      (runChecks st clusters).1 := by
    rw [runChecks_fst_of_accept _ clusters hacc, hfst, commitAll_idem st clusters hnd]
  have hmapall : (clusters.map update_values_accept).all id = true := by
    rw [← runChecks_snd st]
    exact hall
  rw [hcall1]
  have hcall2 : check_logic ((runChecks st clusters).1) clusters =
      ((runChecks ((runChecks st clusters).1) clusters).1,
        (runChecks ((runChecks st clusters).1) clusters).2,
        (runChecks ((runChecks st clusters).1) clusters).2.all id) := by
    simp [check_logic, hisEmpty, hsz, hded]
  rw [hcall2, hfix, runChecks_snd, runChecks_snd, hmapall]

def c4_st : BoardState :=
  [⟨1, (0, 0), (100, 600)⟩, ⟨2, (52, 0), (162, 600)⟩, ⟨3, (104, 0), (224, 600)⟩]

def c4_clusters : List Cluster :=
  [[⟨1, 5, 1, (0, 0)⟩, ⟨2, 5, 2, (52, 0)⟩, ⟨3, 5, 3, (104, 0)⟩]]

theorem c4_witness :
    check_logic ((check_logic c4_st c4_clusters).1) c4_clusters =
      ((check_logic c4_st c4_clusters).1, (check_logic c4_st c4_clusters).2.1, true) :=
  c4_validate_idempotent c4_st c4_clusters (by decide) (by decide) (by decide) (by decide)

/-! ## Opponent heuristic (claims C5 and C6)

`play_ai_turn` (`src/rummikub_game.py` lines 617-742) parses each key of
`PLAYER_2` into a `(card, color, value)` tuple; an `AiTile` models one
such rack entry (the image value is irrelevant to the rack claims).  The
code partitions the rack by `int(values[0]) % 2`, sorts each subset by
`(color, number)`, groups by color (`group_tiles_by_integer`), sorts each
group by number, and plays every group whose size is in `range(3, 6)`,
deleting its keys from `PLAYER_2`; if neither subset produced a playable
group, `add_tile_to_ai` adds one fresh tile to `PLAYER_2`.  Python
`sorted` is modelled by `List.insertionSort` (both produce a list sorted
by the key; the claims below do not depend on tie order). -/

structure AiTile where
  id : Nat
  number : Nat
  color : Nat
deriving DecidableEq

/-- The even-number subset (`int(values[0]) % 2 == 0`, line 647). -/
def even_sequence (rack : List AiTile) : List AiTile :=
  rack.filter (fun t => t.number % 2 == 0)

/-- The odd-number subset (the `else` branch, line 650). -/
def odd_sequence (rack : List AiTile) : List AiTile :=
  rack.filter (fun t => t.number % 2 != 0)

def byNumber (a b : AiTile) : Prop := a.number ≤ b.number

instance : DecidableRel byNumber := fun a b => Nat.decLe a.number b.number

instance : IsTotal AiTile byNumber := ⟨fun a b => Nat.le_total a.number b.number⟩

instance : IsTrans AiTile byNumber := ⟨fun _ _ _ => Nat.le_trans⟩

/-- One color group of a parity subset: all tiles of that color, sorted by
number (`group_tiles_by_integer`, lines 652-664). -/
def group_for_color (l : List AiTile) (c : Nat) : List AiTile :=
  List.insertionSort byNumber (l.filter (fun t => t.color == c))

/-- The color keys of the grouping dict.  The subset is sorted by
`(color, number)` before grouping (lines 666-667), so the dict keys come
out in ascending color order, each color once. -/
def colorsOf (l : List AiTile) : List Nat :=
  List.insertionSort (· ≤ ·) (l.map AiTile.color).dedup

/-- The groups of one parity subset that the AI plays: the color groups
whose size is in `range(3, 6)` (lines 705-706 and 721-722). -/
def grouped_playable (l : List AiTile) : List (List AiTile) :=
  ((colorsOf l).map (group_for_color l)).filter
    (fun g => decide (3 ≤ g.length) && decide (g.length < 6))

def meldIds : List (List AiTile) → List Nat
  | [] => []
  | g :: gs => g.map AiTile.id ++ meldIds gs

/-- `add_tile_to_ai` (lines 578-615) at the rack level: the rejection
sampling loop picks a tile key absent from `PLAYER_1`, `PLAYER_2` and
`game_object_database`, and adds it to `PLAYER_2`; `drawn` is the tile the
loop settles on (a dict insert is a no-op on an existing key). -/
def add_tile_to_ai (rack : List AiTile) (drawn : AiTile) : List AiTile :=
  if rack.any (fun t => t.id == drawn.id) then rack else rack ++ [drawn]

/-- `play_ai_turn` with `is_delete=True` (the only way it is called, lines
488 and 979): returns the resulting `PLAYER_2` rack and the list of played
melds.  Even groups are played first, then odd groups; played keys are
deleted from the rack; if no group was playable in either subset, one
tile is drawn instead. -/
def play_ai_turn (rack : List AiTile) (drawn : AiTile) :
    List AiTile × List (List AiTile) :=
  let played := grouped_playable (even_sequence rack) ++
    grouped_playable (odd_sequence rack)
  let rack1 := rack.filter (fun t => !(meldIds played).contains t.id)
  if (grouped_playable (even_sequence rack)).isEmpty &&
      (grouped_playable (odd_sequence rack)).isEmpty then
    (add_tile_to_ai rack1 drawn, played)
  else (rack1, played)

/-- Following the words of the spec (§4.5 step 2): numbers increase by
exactly 2 consecutively. -/
def spec_step2_run (m : List AiTile) : Bool :=
  match m with
  | a :: b :: l => (b.number == a.number + 2) && spec_step2_run (b :: l)
  | _ => true

/-- Following the words of the spec (§4.5 steps 2-3): a parity subset
contains a playable run when some color group, sorted by number, has three
consecutive entries increasing by exactly 2 (a same-color step-2 run of
length at least 3). -/
def step2TripleIn : List Nat → Bool
  | a :: b :: c :: l => (b == a + 2 && c == b + 2) || step2TripleIn (b :: c :: l)
  | _ => false

def spec_has_playable_run (subset : List AiTile) : Bool :=
  (colorsOf subset).any
    (fun c => step2TripleIn ((group_for_color subset c).map AiTile.number))

def c5_rack : List AiTile := [⟨1, 2, 4⟩, ⟨2, 8, 4⟩, ⟨3, 14, 4⟩]

/-- C5 (counterexample): with the opponent rack RED-2, RED-8, RED-14 (all
even, same color), the heuristic plays the three tiles as one meld, but
their numbers step by 6, not by 2: the claim that every played meld has
numbers increasing by exactly 2 consecutively is false on the code, which
never checks the gaps inside a color group. -/
theorem c5_counterexample :
    (play_ai_turn c5_rack ⟨99, 1, 1⟩).2 = [[⟨1, 2, 4⟩, ⟨2, 8, 4⟩, ⟨3, 14, 4⟩]] ∧
      spec_step2_run [⟨1, 2, 4⟩, ⟨2, 8, 4⟩, ⟨3, 14, 4⟩] = false := by
  refine ⟨by decide, by decide⟩

def c6_rack : List AiTile := [⟨1, 2, 2⟩, ⟨2, 8, 2⟩, ⟨3, 14, 2⟩]

/-- C6 (counterexample): the rack BLUE-2, BLUE-8, BLUE-14 contains no
playable run in the sense of the spec in either parity subset (no numbers
stepping by 2 at all), so the claim says the opponent draws one tile and
its rack grows to 4; instead the code plays all three tiles as a meld and
the rack ends empty. -/
theorem c6_counterexample :
    spec_has_playable_run (even_sequence c6_rack) = false ∧
      spec_has_playable_run (odd_sequence c6_rack) = false ∧
      (play_ai_turn c6_rack ⟨99, 1, 1⟩).1.length = 0 ∧
      c6_rack.length + 1 = 4 := by
  refine ⟨by decide, by decide, by decide, by decide⟩

/-- The shape every meld played by `play_ai_turn` actually has: size in
[3,5], all tiles of one color, all numbers of one parity, numbers sorted
in nondecreasing order (duplicates and arbitrary gaps allowed). -/
def sameColorMeld : List AiTile → Bool
  | [] => true
  | t :: ts => ts.all (fun u => u.color == t.color)

def numbersSortedLe : List AiTile → Bool
  | a :: b :: l => decide (a.number ≤ b.number) && numbersSortedLe (b :: l)
  | _ => true

def c5_meld_shape (m : List AiTile) : Bool :=
  decide (3 ≤ m.length) && decide (m.length ≤ 5) && sameColorMeld m &&
    (m.all (fun t => t.number % 2 == 0) || m.all (fun t => t.number % 2 == 1)) &&
    numbersSortedLe m

lemma play_ai_turn_snd (rack : List AiTile) (d : AiTile) :
    (play_ai_turn rack d).2 =
      grouped_playable (even_sequence rack) ++ grouped_playable (odd_sequence rack) := by
  unfold play_ai_turn
  split <;> rfl

lemma mem_group_for_color {l : List AiTile} {c : Nat} {t : AiTile}
    (ht : t ∈ group_for_color l c) : t ∈ l ∧ t.color = c := by
  unfold group_for_color at ht
  have hmem : t ∈ l.filter (fun t => t.color == c) :=
    (List.perm_insertionSort byNumber _).mem_iff.mp ht
  obtain ⟨hl, hc⟩ := List.mem_filter.mp hmem
  exact ⟨hl, by simpa using hc⟩

lemma grouped_playable_shape {l : List AiTile} {m : List AiTile}
    (hm : m ∈ grouped_playable l) :
    (3 ≤ m.length ∧ m.length ≤ 5) ∧ ∃ c, m = group_for_color l c := by
  unfold grouped_playable at hm
  obtain ⟨hmem, hsz⟩ := List.mem_filter.mp hm
  obtain ⟨c, _, rfl⟩ := List.mem_map.mp hmem
  refine ⟨?_, ⟨c, rfl⟩⟩
  simp only [Bool.and_eq_true, decide_eq_true_eq] at hsz
  omega

lemma sameColorMeld_of_const {m : List AiTile} {c : Nat}
    (h : ∀ t ∈ m, t.color = c) : sameColorMeld m = true := by
  cases m with
  | nil => rfl
  | cons t ts =>
    show ts.all (fun u => u.color == t.color) = true
    rw [List.all_eq_true]
    intro u hu
    have h1 := h u (List.mem_cons_of_mem t hu)
    have h2 := h t (by simp)
    simp [h1, h2]

lemma numbersSortedLe_of_sorted {m : List AiTile} (h : List.Sorted byNumber m) :
    numbersSortedLe m = true := by
  induction m with
  | nil => rfl
  | cons a m ih =>
    cases m with
    | nil => rfl
    | cons b l =>
      rw [List.sorted_cons] at h
      obtain ⟨hab, hrest⟩ := h
      have h1 : a.number ≤ b.number := hab b (by simp)
      have h2 := ih hrest
      show (decide (a.number ≤ b.number) && numbersSortedLe (b :: l)) = true
      simp [h1, h2]

lemma numbersSortedLe_group (l : List AiTile) (c : Nat) :
    numbersSortedLe (group_for_color l c) = true :=
  numbersSortedLe_of_sorted (List.sorted_insertionSort byNumber _)

lemma c5_shape_core {l : List AiTile} {m : List AiTile} (p : Nat)
    (hm : m ∈ grouped_playable l)
    (hpar : ∀ t ∈ l, t.number % 2 = p) :
    (3 ≤ m.length ∧ m.length ≤ 5) ∧ sameColorMeld m = true ∧
      (m.all (fun t => t.number % 2 == p)) = true ∧ numbersSortedLe m = true := by
  obtain ⟨hsz, c, rfl⟩ := grouped_playable_shape hm
  refine ⟨hsz, ?_, ?_, numbersSortedLe_group l c⟩
  · exact sameColorMeld_of_const (fun t ht => (mem_group_for_color ht).2)
  · rw [List.all_eq_true]
    intro t ht
    have := hpar t (mem_group_for_color ht).1
    simp [this]

/-- C5 (amended): every meld played by the opponent heuristic is a set of
3 to 5 same-color tiles drawn from one parity subset of the rack (numbers
all even or all odd), listed in nondecreasing number order — but the
numbers need not increase by exactly 2: the heuristic plays every color
class of a parity subset whose size is in [3,5], whatever the gaps or
duplicates inside it. -/
theorem c5_amended (rack : List AiTile) (d : AiTile) (m : List AiTile)
    (hm : m ∈ (play_ai_turn rack d).2) : c5_meld_shape m = true := by
  rw [play_ai_turn_snd] at hm
  rcases List.mem_append.mp hm with hcase | hcase
  · have hpar : ∀ t ∈ even_sequence rack, t.number % 2 = 0 := by
      intro t ht
      have := (List.mem_filter.mp ht).2
      simpa using this
    obtain ⟨⟨h3, h5⟩, hC, hD, hE⟩ := c5_shape_core 0 hcase hpar
    simp [c5_meld_shape, h3, h5, hC, hD, hE]
  · have hpar : ∀ t ∈ odd_sequence rack, t.number % 2 = 1 := by
      intro t ht
      have := (List.mem_filter.mp ht).2
      simp only [bne_iff_ne, ne_eq] at this
      omega
    obtain ⟨⟨h3, h5⟩, hC, hD, hE⟩ := c5_shape_core 1 hcase hpar
    simp [c5_meld_shape, h3, h5, hC, hD, hE]

theorem c5_amended_witness : c5_meld_shape [⟨1, 2, 4⟩, ⟨2, 8, 4⟩, ⟨3, 14, 4⟩] = true :=
  c5_amended c5_rack ⟨99, 1, 1⟩ [⟨1, 2, 4⟩, ⟨2, 8, 4⟩, ⟨3, 14, 4⟩] (by decide)

lemma length_group_for_color (l : List AiTile) (c : Nat) :
    (group_for_color l c).length = (l.filter (fun t => t.color == c)).length :=
  (List.perm_insertionSort byNumber _).length_eq

lemma mem_colorsOf {l : List AiTile} {c : Nat} (hc : c ∈ colorsOf l) :
    c ∈ l.map AiTile.color := by
  unfold colorsOf at hc
  have := (List.perm_insertionSort _ _).mem_iff.mp hc
  exact List.mem_dedup.mp this

lemma grouped_playable_nil {l : List AiTile}
    (h : ∀ c ∈ colorsOf l,
      ¬ (3 ≤ (l.filter (fun t => t.color == c)).length ∧
          (l.filter (fun t => t.color == c)).length < 6)) :
    grouped_playable l = [] := by
  unfold grouped_playable
  rw [List.filter_eq_nil_iff]
  intro g hg
  obtain ⟨c, hc, rfl⟩ := List.mem_map.mp hg
  have hlen := length_group_for_color l c
  have hnot := h c hc
  simp only [Bool.and_eq_true, decide_eq_true_eq, not_and, hlen]
  intro h3
  intro h6
  exact hnot ⟨h3, h6⟩

/-- C6 (amended): whenever no color class inside either parity subset of
the opponent rack has size in [3,5] (the code's playability test — rather
than the spec's step-2 run test), the heuristic plays no meld, draws
exactly one fresh tile, and the rack grows by exactly one. -/
theorem c6_amended (rack : List AiTile) (d : AiTile)
    (hcls : ∀ c ∈ rack.map AiTile.color, ∀ p ∈ [0, 1],
      ¬ (3 ≤ (rack.filter (fun t => t.color == c && t.number % 2 == p)).length ∧
          (rack.filter (fun t => t.color == c && t.number % 2 == p)).length < 6))
    (hfresh : ∀ t ∈ rack, t.id ≠ d.id) :
    (play_ai_turn rack d).2 = [] ∧
      (play_ai_turn rack d).1 = rack ++ [d] ∧
      (play_ai_turn rack d).1.length = rack.length + 1 := by
  have heven : grouped_playable (even_sequence rack) = [] := by
    apply grouped_playable_nil
    intro c hc
    have hcr : c ∈ rack.map AiTile.color := by
      obtain ⟨t, ht, rfl⟩ := List.mem_map.mp (mem_colorsOf hc)
      exact List.mem_map.mpr ⟨t, (List.mem_filter.mp ht).1, rfl⟩
    have hfilter : (even_sequence rack).filter (fun t => t.color == c) =
        rack.filter (fun t => t.color == c && t.number % 2 == 0) := by
      unfold even_sequence
      rw [List.filter_filter]
    rw [hfilter]
    exact hcls c hcr 0 (by simp)
  have hodd : grouped_playable (odd_sequence rack) = [] := by
    apply grouped_playable_nil
    intro c hc
    have hcr : c ∈ rack.map AiTile.color := by
      obtain ⟨t, ht, rfl⟩ := List.mem_map.mp (mem_colorsOf hc)
      exact List.mem_map.mpr ⟨t, (List.mem_filter.mp ht).1, rfl⟩
    have hfilter : (odd_sequence rack).filter (fun t => t.color == c) =
        rack.filter (fun t => t.color == c && t.number % 2 == 1) := by
      unfold odd_sequence
      rw [List.filter_filter]
      refine List.filter_congr ?_
      intro t _
      rcases Nat.mod_two_eq_zero_or_one t.number with h2 | h2 <;> simp [h2]
    rw [hfilter]
    exact hcls c hcr 1 (by simp)
  have hany : rack.any (fun t => t.id == d.id) = false := by
    rw [List.any_eq_false]
    intro t ht
    simpa using hfresh t ht
  have hfst : (play_ai_turn rack d).1 = rack ++ [d] := by
    simp [play_ai_turn, heven, hodd, meldIds, add_tile_to_ai, hany]
  refine ⟨?_, hfst, ?_⟩
  · rw [play_ai_turn_snd, heven, hodd]
    rfl
  · rw [hfst]
    simp

def c6w_rack : List AiTile := [⟨1, 2, 1⟩, ⟨2, 4, 1⟩, ⟨3, 3, 2⟩]

theorem c6_amended_witness :
    (play_ai_turn c6w_rack ⟨9, 7, 3⟩).2 = [] ∧
      (play_ai_turn c6w_rack ⟨9, 7, 3⟩).1 = c6w_rack ++ [⟨9, 7, 3⟩] ∧
      (play_ai_turn c6w_rack ⟨9, 7, 3⟩).1.length = c6w_rack.length + 1 :=
  c6_amended c6w_rack ⟨9, 7, 3⟩ (by decide) (by decide)

/-! ## Initial tile pool (claim C7) -/

/-- Modelled from the spec: the initial tile pool.  The asset list
`TILES_IMAGES_PATHS` that `draw_initial_tiles` and the draw functions
sample from lives in `surface_info.py`, which is not under `src/`; the
spec defines `create_initial_pool()` as producing exactly two instances of
every (color, number) combination over the five colors BLACK, BLUE,
GREEN, RED, YELLOW (here 0..4) and numbers 1..15, with the `instance`
field disambiguating the two copies. -/
structure PoolTile where
  color : Nat
  number : Nat
  inst : Nat
deriving DecidableEq

def poolColors : List Nat := [0, 1, 2, 3, 4]

def poolNumbers : List Nat := List.range' 1 15

def instancesFor (c n : Nat) : List PoolTile := [⟨c, n, 1⟩, ⟨c, n, 2⟩]

def create_initial_pool : List PoolTile :=
  (poolColors.map (fun c => (poolNumbers.map (instancesFor c)).flatten)).flatten

/-- The same pool enumerated numbers-first, to express order independence. -/
def create_initial_pool_numbers_first : List PoolTile :=
  (poolNumbers.map (fun n => (poolColors.map (fun c => instancesFor c n)).flatten)).flatten

/-- C7: the initial pool holds, for every color in the five colors and
every number in 1..15, exactly the two instances of that (color, number)
combination, distinguished by the `inst` field; and enumerating the pool
in a different order (numbers first) yields the same multiset of tiles,
so pool creation is order-independent. -/
theorem c7_pool_two_instances :
    (∀ c ∈ poolColors, ∀ n ∈ poolNumbers,
        create_initial_pool.filter (fun t => t.color == c && t.number == n) =
          [⟨c, n, 1⟩, ⟨c, n, 2⟩]) ∧
      create_initial_pool.Perm create_initial_pool_numbers_first := by
  constructor
  · decide
  · decide

theorem c7_witness :
    create_initial_pool.filter (fun t => t.color == 3 && t.number == 7) =
        [⟨3, 7, 1⟩, ⟨3, 7, 2⟩] ∧
      create_initial_pool.Perm create_initial_pool_numbers_first :=
  ⟨c7_pool_two_instances.1 3 (by decide) 7 (by decide), c7_pool_two_instances.2⟩

/-! ## Game end (claim C8) -/

inductive Player where
  | one
  | two
deriving DecidableEq

/-- The game-over branch of `update_blit` (lines 1318-1331): the game is
over when `len(PLAYER_2) == 0 or len(PLAYER_1) == 0`, and the banner names
PLAYER 1 as the winner when `len(PLAYER_1) == 0`, else PLAYER 2. -/
def update_blit_winner (p1Size p2Size : Nat) : Option Player :=
  if p2Size == 0 || p1Size == 0 then
    some (if p1Size == 0 then Player.one else Player.two)
  else none

def rack_size : Player → Nat → Nat → Nat
  | Player.one, p1, _ => p1
  | Player.two, _, p2 => p2

/-- C8: `update_blit` declares a winner exactly when some rack is empty,
and the declared winner is a player whose rack is empty (when both racks
are empty, player one is declared, whose rack is indeed empty). -/
theorem c8_game_end (p1 p2 : Nat) (w : Player) :
    ((update_blit_winner p1 p2).isSome ↔ (p1 = 0 ∨ p2 = 0)) ∧
      (update_blit_winner p1 p2 = some w → rack_size w p1 p2 = 0) := by
  constructor
  · by_cases h1 : p1 = 0 <;> by_cases h2 : p2 = 0 <;>
      simp [update_blit_winner, h1, h2]
  · intro hw
    by_cases h1 : p1 = 0
    · have hv : update_blit_winner p1 p2 = some Player.one := by
        simp [update_blit_winner, h1]
      rw [hv] at hw
      cases hw
      simpa [rack_size] using h1
    · by_cases h2 : p2 = 0
      · have hv : update_blit_winner p1 p2 = some Player.two := by
          simp [update_blit_winner, h1, h2]
        rw [hv] at hw
        cases hw
        simpa [rack_size] using h2
      · have hv : update_blit_winner p1 p2 = none := by
          simp [update_blit_winner, h1, h2]
        rw [hv] at hw
        cases hw

theorem c8_witness :
    ((update_blit_winner 0 5).isSome ↔ ((0 : Nat) = 0 ∨ (5 : Nat) = 0)) ∧
      (update_blit_winner 0 5 = some Player.one → rack_size Player.one 0 5 = 0) :=
  c8_game_end 0 5 Player.one

/-! ## Tile conservation (claim C9)

Key-level model of the containers that hold tiles: `p1` and `p2` are the
tile-key sets of the dicts `PLAYER_1` and `PLAYER_2`, `godb` the tile keys
of `game_object_database` (every placed or rack-1 tile; the board is
`godb` minus `p1`), and `pool` the keys of the initial pool not yet drawn
(the source keeps no pool container: a draw rejection-samples a key absent
from every dict, which is exactly a key of the remaining pool).  Tile keys
(asset paths) are modelled as naturals.  Each `GStep` constructor is the
key-level effect of one source operation; position-only operations
(`move_tiles`, rollback, the position writes of a commit) do not move keys
between containers and need no constructor. -/

structure GState where
  pool : Finset Nat
  p1 : Finset Nat
  p2 : Finset Nat
  godb : Finset Nat
deriving DecidableEq

inductive GStep : GState → GState → Prop
  /-- `update_score` (lines 55-84): deletes from `PLAYER_1` the keys of
  tiles that left the rack region; they stay in `game_object_database`. -/
  | update_score (s : GState) (D : Finset Nat) (hD : D ⊆ s.p1) :
      GStep s ⟨s.pool, s.p1 \ D, s.p2, s.godb⟩
  /-- `add_tile_to_rack` (lines 424-489): a fresh key (absent from every
  dict, hence still in the pool) is added to both `PLAYER_1` and
  `game_object_database`. -/
  | add_tile_to_rack (s : GState) (k : Nat) (hk : k ∈ s.pool) :
      GStep s ⟨s.pool.erase k, insert k s.p1, s.p2, insert k s.godb⟩
  /-- `add_tile_to_ai` (lines 578-615): a fresh key is added to
  `PLAYER_2` only. -/
  | add_tile_to_ai_draw (s : GState) (k : Nat) (hk : k ∈ s.pool) :
      GStep s ⟨s.pool.erase k, s.p1, insert k s.p2, s.godb⟩
  /-- `play_ai_turn` with `is_delete=True` (lines 702-738): the played
  keys enter `game_object_database` and are deleted from `PLAYER_2`. -/
  | play_ai_meld (s : GState) (K : Finset Nat) (hK : K ⊆ s.p2) :
      GStep s ⟨s.pool, s.p1, s.p2 \ K, s.godb ∪ K⟩
  /-- `play_for_me` (lines 1067-1122): `set_tile_position` deletes each
  played key from `PLAYER_1`; the keys stay in `game_object_database`. -/
  | play_for_me (s : GState) (K : Finset Nat) (hK : K ⊆ s.p1) :
      GStep s ⟨s.pool, s.p1 \ K, s.p2, s.godb⟩

/-- Reachability from the initial deal: `draw_initial_tiles` deals two
disjoint hands from the pool (distinct random index pairs; the distinct
asset paths come from `TILES_IMAGES_PATHS` in `surface_info.py`, not under
`src/`, as the spec's draw-without-replacement describes), and
`place_initial_tiles` registers player 1's hand in
`game_object_database`. -/
inductive Reachable (P0 : Finset Nat) : GState → Prop
  | init (d1 d2 : Finset Nat) (h1 : d1 ⊆ P0) (h2 : d2 ⊆ P0) (hd : d1 ∩ d2 = ∅) :
      Reachable P0 ⟨P0 \ (d1 ∪ d2), d1, d2, d1⟩
  | step (s s2 : GState) (hs : Reachable P0 s) (h : GStep s s2) : Reachable P0 s2

/-- The inductive invariant: rack 1 lives inside `game_object_database`,
rack 2 and the pool are disjoint from it and from each other, and pool,
rack 2 and `game_object_database` together hold exactly the initial
pool. -/
def GInv (P0 : Finset Nat) (s : GState) : Prop :=
  (∀ a ∈ s.p1, a ∈ s.godb) ∧
    (∀ a ∈ s.p2, a ∉ s.godb) ∧
    (∀ a ∈ s.pool, a ∉ s.godb) ∧
    (∀ a ∈ s.pool, a ∉ s.p2) ∧
    (∀ a, a ∈ P0 ↔ (a ∈ s.pool ∨ a ∈ s.p2 ∨ a ∈ s.godb))

lemma ginv_init (P0 d1 d2 : Finset Nat) (h1 : d1 ⊆ P0) (h2 : d2 ⊆ P0)
    (hd : d1 ∩ d2 = ∅) : GInv P0 ⟨P0 \ (d1 ∪ d2), d1, d2, d1⟩ := by
  have hd2 : ∀ a, a ∈ d1 → a ∈ d2 → False := by
    intro a ha hb
    have hmem : a ∈ d1 ∩ d2 := Finset.mem_inter.mpr ⟨ha, hb⟩
    rw [hd] at hmem
    exact absurd hmem (Finset.not_mem_empty a)
  refine ⟨fun a ha => ha, ?_, ?_, ?_, ?_⟩
  · intro a ha hb
    exact hd2 a hb ha
  · intro a ha hb
    exact (Finset.mem_sdiff.mp ha).2 (Finset.mem_union_left _ hb)
  · intro a ha hb
    exact (Finset.mem_sdiff.mp ha).2 (Finset.mem_union_right _ hb)
  · intro a
    constructor
    · intro hp
      by_cases hmem : a ∈ d1 ∪ d2
      · rcases Finset.mem_union.mp hmem with h | h
        · exact Or.inr (Or.inr h)
        · exact Or.inr (Or.inl h)
      · exact Or.inl (Finset.mem_sdiff.mpr ⟨hp, hmem⟩)
    · intro hp
      rcases hp with h | h | h
      · exact (Finset.mem_sdiff.mp h).1
      · exact h2 h
      · exact h1 h

lemma ginv_step {P0 : Finset Nat} {s s2 : GState}
    (h : GInv P0 s) (hstep : GStep s s2) : GInv P0 s2 := by
  obtain ⟨h1, h2, h3, h4, h5⟩ := h
  cases hstep with
  | update_score D hD =>
    refine ⟨?_, h2, h3, h4, h5⟩
    intro a ha
    exact h1 a (Finset.mem_sdiff.mp ha).1
  | add_tile_to_rack k hk =>
    refine ⟨?_, ?_, ?_, ?_, ?_⟩
    · intro a ha
      rcases Finset.mem_insert.mp ha with rfl | ha
      · exact Finset.mem_insert_self a _
      · exact Finset.mem_insert_of_mem (h1 a ha)
    · intro a ha hb
      rcases Finset.mem_insert.mp hb with rfl | hb
      · exact h4 a hk ha
      · exact h2 a ha hb
    · intro a ha hb
      have ha2 := Finset.mem_of_mem_erase ha
      have hne := Finset.ne_of_mem_erase ha
      rcases Finset.mem_insert.mp hb with rfl | hb
      · exact hne rfl
      · exact h3 a ha2 hb
    · intro a ha hb
      exact h4 a (Finset.mem_of_mem_erase ha) hb
    · intro a
      rw [h5 a]
      constructor
      · intro hcase
        rcases hcase with hp | hp2 | hg
        · by_cases hak : a = k
          · subst hak
            exact Or.inr (Or.inr (Finset.mem_insert_self _ _))
          · exact Or.inl (Finset.mem_erase.mpr ⟨hak, hp⟩)
        · exact Or.inr (Or.inl hp2)
        · exact Or.inr (Or.inr (Finset.mem_insert_of_mem hg))
      · intro hcase
        rcases hcase with hp | hp2 | hg
        · exact Or.inl (Finset.mem_of_mem_erase hp)
        · exact Or.inr (Or.inl hp2)
        · rcases Finset.mem_insert.mp hg with rfl | hg
          · exact Or.inl hk
          · exact Or.inr (Or.inr hg)
  | add_tile_to_ai_draw k hk =>
    refine ⟨h1, ?_, ?_, ?_, ?_⟩
    · intro a ha hb
      rcases Finset.mem_insert.mp ha with rfl | ha
      · exact h3 a hk hb
      · exact h2 a ha hb
    · intro a ha hb
      exact h3 a (Finset.mem_of_mem_erase ha) hb
    · intro a ha hb
      have ha2 := Finset.mem_of_mem_erase ha
      have hne := Finset.ne_of_mem_erase ha
      rcases Finset.mem_insert.mp hb with rfl | hb
      · exact hne rfl
      · exact h4 a ha2 hb
    · intro a
      rw [h5 a]
      constructor
      · intro hcase
        rcases hcase with hp | hp2 | hg
        · by_cases hak : a = k
          · subst hak
            exact Or.inr (Or.inl (Finset.mem_insert_self _ _))
          · exact Or.inl (Finset.mem_erase.mpr ⟨hak, hp⟩)
        · exact Or.inr (Or.inl (Finset.mem_insert_of_mem hp2))
        · exact Or.inr (Or.inr hg)
      · intro hcase
        rcases hcase with hp | hp2 | hg
        · exact Or.inl (Finset.mem_of_mem_erase hp)
        · rcases Finset.mem_insert.mp hp2 with rfl | hp2
          · exact Or.inl hk
          · exact Or.inr (Or.inl hp2)
        · exact Or.inr (Or.inr hg)
  | play_ai_meld K hK =>
    refine ⟨?_, ?_, ?_, ?_, ?_⟩
    · intro a ha
      exact Finset.mem_union_left _ (h1 a ha)
    · intro a ha hb
      obtain ⟨ha2, haK⟩ := Finset.mem_sdiff.mp ha
      rcases Finset.mem_union.mp hb with hb | hb
      · exact h2 a ha2 hb
      · exact haK hb
    · intro a ha hb
      rcases Finset.mem_union.mp hb with hb | hb
      · exact h3 a ha hb
      · exact h4 a ha (hK hb)
    · intro a ha hb
      exact h4 a ha (Finset.mem_sdiff.mp hb).1
    · intro a
      rw [h5 a]
      constructor
      · intro hcase
        rcases hcase with hp | hp2 | hg
        · exact Or.inl hp
        · by_cases haK : a ∈ K
          · exact Or.inr (Or.inr (Finset.mem_union_right _ haK))
          · exact Or.inr (Or.inl (Finset.mem_sdiff.mpr ⟨hp2, haK⟩))
        · exact Or.inr (Or.inr (Finset.mem_union_left _ hg))
      · intro hcase
        rcases hcase with hp | hp2 | hg
        · exact Or.inl hp
        · exact Or.inr (Or.inl (Finset.mem_sdiff.mp hp2).1)
        · rcases Finset.mem_union.mp hg with hg | hg
          · exact Or.inr (Or.inr hg)
          · exact Or.inr (Or.inl (hK hg))
  | play_for_me K hK =>
    refine ⟨?_, h2, h3, h4, h5⟩
    intro a ha
    exact h1 a (Finset.mem_sdiff.mp ha).1

lemma ginv_reachable {P0 : Finset Nat} {s : GState} (h : Reachable P0 s) :
    GInv P0 s := by
  induction h with
  | init d1 d2 h1 h2 hd => exact ginv_init P0 d1 d2 h1 h2 hd
  | step s s2 hs hstep ih => exact ginv_step ih hstep

/-- Conservation, stated on the containers the claim names: the two racks,
the board (`godb` minus rack 1) and the undealt pool partition the initial
pool: their union is the whole pool and they are pairwise disjoint, so no
tile is ever duplicated or lost. -/
def conserved (P0 : Finset Nat) (s : GState) : Prop :=
  s.p1 ∪ s.p2 ∪ (s.godb \ s.p1) ∪ s.pool = P0 ∧
    s.p1 ∩ s.p2 = ∅ ∧
    s.p2 ∩ (s.godb \ s.p1) = ∅ ∧
    s.pool ∩ s.p1 = ∅ ∧
    s.pool ∩ s.p2 = ∅ ∧
    s.pool ∩ (s.godb \ s.p1) = ∅

/-- C9: in every reachable game state, the tiles across both racks, the
board and the undealt pool are exactly the initially created pool, with
no duplication and no loss, whatever sequence of moves, validations,
rollbacks, rearrangements, auto-plays and draws led there. -/
theorem c9_conservation (P0 : Finset Nat) (s : GState) (h : Reachable P0 s) :
    conserved P0 s := by
  obtain ⟨h1, h2, h3, h4, h5⟩ := ginv_reachable h
  refine ⟨?_, ?_, ?_, ?_, ?_, ?_⟩
  · apply Finset.ext
    intro a
    simp only [Finset.mem_union, Finset.mem_sdiff]
    constructor
    · intro hcase
      rw [h5 a]
      rcases hcase with ((hp1 | hp2) | hgd) | hpool
      · exact Or.inr (Or.inr (h1 a hp1))
      · exact Or.inr (Or.inl hp2)
      · exact Or.inr (Or.inr hgd.1)
      · exact Or.inl hpool
    · intro hP
      rw [h5 a] at hP
      rcases hP with hp | hp2 | hg
      · exact Or.inr hp
      · exact Or.inl (Or.inl (Or.inr hp2))
      · by_cases hp1 : a ∈ s.p1
        · exact Or.inl (Or.inl (Or.inl hp1))
        · exact Or.inl (Or.inr ⟨hg, hp1⟩)
  · apply Finset.eq_empty_iff_forall_not_mem.mpr
    intro a ha
    obtain ⟨ha1, ha2⟩ := Finset.mem_inter.mp ha
    exact h2 a ha2 (h1 a ha1)
  · apply Finset.eq_empty_iff_forall_not_mem.mpr
    intro a ha
    obtain ⟨ha2, hag⟩ := Finset.mem_inter.mp ha
    exact h2 a ha2 (Finset.mem_sdiff.mp hag).1
  · apply Finset.eq_empty_iff_forall_not_mem.mpr
    intro a ha
    obtain ⟨hap, ha1⟩ := Finset.mem_inter.mp ha
    exact h3 a hap (h1 a ha1)
  · apply Finset.eq_empty_iff_forall_not_mem.mpr
    intro a ha
    obtain ⟨hap, ha2⟩ := Finset.mem_inter.mp ha
    exact h4 a hap ha2
  · apply Finset.eq_empty_iff_forall_not_mem.mpr
    intro a ha
    obtain ⟨hap, hag⟩ := Finset.mem_inter.mp ha
    exact h3 a hap (Finset.mem_sdiff.mp hag).1

theorem c9_witness :
    conserved ({1, 2, 3} : Finset Nat)
      ⟨({1, 2, 3} : Finset Nat) \ (({1} : Finset Nat) ∪ {2}), {1}, {2}, {1}⟩ :=
  c9_conservation {1, 2, 3} _
    (Reachable.init {1} {2} (by decide) (by decide) (by decide))

/-! ## Initial deal (claim C10) -/

/-- `is_present = str(random_tile[0]) + str(random_tile[1])` (line 381). -/
def isPresentStr (p : Nat × Nat) : String := toString p.1 ++ toString p.2

/-- A Python dict assignment `players[key] = value` at the key level: a
new key is appended, an existing key only has its value replaced. -/
def dictInsert (rack : List String) (k : String) : List String :=
  if k ∈ rack then rack else rack ++ [k]

/-- The `while len(players) != 15` loop of `draw_initial_tiles` (lines
374-387) for one player, driven by the list `picks` of index pairs the
RNG yields: a pick whose `is_present` string is already in
`random_tile_temp` is skipped; otherwise the string is recorded and the
tile path `tile_image_list[p.1][p.2]` becomes a key of the player dict.
`none` models the pick stream running out before the rack is full, and an
index pair outside `tile_image_list` (where the source would raise
IndexError).  Returns the rack, the shared `random_tile_temp`, the
accepted picks so far, and the remaining picks. -/
def fillRack (tiles : List (List String)) :
    List (Nat × Nat) → List String → List (Nat × Nat) → List String →
      Option (List String × List String × List (Nat × Nat) × List (Nat × Nat))
  | [], temp, used, rack =>
    if rack.length = 15 then some (rack, temp, used, []) else none
  | p :: rest, temp, used, rack =>
    if rack.length = 15 then some (rack, temp, used, p :: rest)
    else if isPresentStr p ∈ temp then fillRack tiles rest temp used rack
    else
      match tiles[p.1]?.bind (fun row => row[p.2]?) with
      | none => none
      | some path =>
        fillRack tiles rest (temp ++ [isPresentStr p]) (used ++ [p])
          (dictInsert rack path)

/-- `draw_initial_tiles` (lines 359-388) over the two players of
`players_database`, with `random_tile_temp` shared across the players.
Returns both racks and the full list of accepted picks. -/
def draw_initial_tiles (tiles : List (List String)) (picks : List (Nat × Nat)) :
    Option (List String × List String × List (Nat × Nat)) :=
  match fillRack tiles picks [] [] [] with
  | none => none
  | some (rack1, temp1, used1, rest1) =>
    match fillRack tiles rest1 temp1 used1 [] with
    | none => none
    | some (rack2, _, used2, _) => some (rack1, rack2, used2)

lemma fillRack_length (tiles : List (List String)) :
    ∀ (picks : List (Nat × Nat)) (temp : List String) (used : List (Nat × Nat))
      (rack r t : List String) (u rest : List (Nat × Nat)),
      fillRack tiles picks temp used rack = some (r, t, u, rest) →
      r.length = 15 := by
  intro picks
  induction picks with
  | nil =>
    intro temp used rack r t u rest h
    by_cases hlen : rack.length = 15
    · simp only [fillRack, if_pos hlen, Option.some.injEq] at h
      obtain ⟨rfl, -⟩ := h
      exact hlen
    · simp only [fillRack, if_neg hlen] at h
      exact Option.noConfusion h
  | cons p rest0 ih =>
    intro temp used rack r t u rest h
    by_cases hlen : rack.length = 15
    · simp only [fillRack, if_pos hlen, Option.some.injEq] at h
      obtain ⟨rfl, -⟩ := h
      exact hlen
    · by_cases hpres : isPresentStr p ∈ temp
      · simp only [fillRack, if_neg hlen, if_pos hpres] at h
        exact ih temp used rack r t u rest h
      · simp only [fillRack, if_neg hlen, if_neg hpres] at h
        cases hlook : tiles[p.1]?.bind (fun row => row[p.2]?) with
        | none => rw [hlook] at h; cases h
        | some path =>
          rw [hlook] at h
          exact ih _ _ _ r t u rest h

/-- The `random_tile_temp` bookkeeping: the accepted picks have pairwise
distinct `is_present` strings, all recorded in the temp list. -/
lemma fillRack_used (tiles : List (List String)) :
    ∀ (picks : List (Nat × Nat)) (temp : List String) (used : List (Nat × Nat))
      (rack r t : List String) (u rest : List (Nat × Nat)),
      fillRack tiles picks temp used rack = some (r, t, u, rest) →
      (used.map isPresentStr).Nodup → (∀ q ∈ used, isPresentStr q ∈ temp) →
      (u.map isPresentStr).Nodup ∧ ∀ q ∈ u, isPresentStr q ∈ t := by
  intro picks
  induction picks with
  | nil =>
    intro temp used rack r t u rest h hnd hin
    by_cases hlen : rack.length = 15
    · simp only [fillRack, if_pos hlen, Option.some.injEq] at h
      obtain ⟨-, rfl, rfl, -⟩ := h
      exact ⟨hnd, hin⟩
    · simp only [fillRack, if_neg hlen] at h
      exact Option.noConfusion h
  | cons p rest0 ih =>
    intro temp used rack r t u rest h hnd hin
    by_cases hlen : rack.length = 15
    · simp only [fillRack, if_pos hlen, Option.some.injEq] at h
      obtain ⟨-, rfl, rfl, -⟩ := h
      exact ⟨hnd, hin⟩
    · by_cases hpres : isPresentStr p ∈ temp
      · simp only [fillRack, if_neg hlen, if_pos hpres] at h
        exact ih temp used rack r t u rest h hnd hin
      · simp only [fillRack, if_neg hlen, if_neg hpres] at h
        cases hlook : tiles[p.1]?.bind (fun row => row[p.2]?) with
        | none => rw [hlook] at h; cases h
        | some path =>
          rw [hlook] at h
          refine ih _ _ _ r t u rest h ?_ ?_
          · rw [List.map_append, List.nodup_append]
            refine ⟨hnd, List.nodup_singleton _, ?_⟩
            intro x hx
            obtain ⟨q, hq, rfl⟩ := List.mem_map.mp hx
            simp only [List.map_cons, List.map_nil, List.mem_singleton]
            intro habs
            exact hpres (habs ▸ hin q hq)
          · intro q hq
            rcases List.mem_append.mp hq with hq | hq
            · exact List.mem_append_left _ (hin q hq)
            · rw [List.mem_singleton] at hq
              subst hq
              exact List.mem_append_right _ (by simp)

/-- C10: whenever the initial deal completes, each of the two racks holds
exactly 15 tile keys, and the accepted random index pairs are pairwise
distinct across the whole deal — within one rack and across the two racks
— because `random_tile_temp` is shared between the players and a pick is
only accepted when its `is_present` string is new (equal pairs always
produce equal strings, so no pair can be accepted twice). -/
theorem c10_draw_initial (tiles : List (List String)) (picks : List (Nat × Nat))
    (r1 r2 : List String) (used : List (Nat × Nat))
    (h : draw_initial_tiles tiles picks = some (r1, r2, used)) :
    r1.length = 15 ∧ r2.length = 15 ∧ used.Nodup := by
  unfold draw_initial_tiles at h
  cases hf1 : fillRack tiles picks [] [] [] with
  | none => rw [hf1] at h; cases h
  | some q1 =>
    obtain ⟨rack1, temp1, used1, rest1⟩ := q1
    rw [hf1] at h
    dsimp only at h
    cases hf2 : fillRack tiles rest1 temp1 used1 [] with
    | none => rw [hf2] at h; cases h
    | some q2 =>
      obtain ⟨rack2, temp2, used2, rest2⟩ := q2
      rw [hf2] at h
      dsimp only at h
      simp only [Option.some.injEq, Prod.mk.injEq] at h
      have hinv1 := fillRack_used tiles picks [] [] [] rack1 temp1 used1 rest1 hf1
        (by simp) (by simp)
      have hinv2 := fillRack_used tiles rest1 temp1 used1 [] rack2 temp2 used2 rest2 hf2
        hinv1.1 hinv1.2
      have hl1 := fillRack_length tiles picks [] [] [] rack1 temp1 used1 rest1 hf1
      have hl2 := fillRack_length tiles rest1 temp1 used1 [] rack2 temp2 used2 rest2 hf2
      obtain ⟨rfl, rfl, rfl⟩ := h
      exact ⟨hl1, hl2, List.Nodup.of_map isPresentStr hinv2.1⟩

def c10_tiles : List (List String) :=
  [["z", "t1", "t2", "t3", "t4", "t5", "t6", "t7", "t8", "t9", "t10",
    "t11", "t12", "t13", "t14", "t15", "t16", "t17", "t18", "t19", "t20",
    "t21", "t22", "t23", "t24", "t25", "t26", "t27", "t28", "t29", "t30"]]

def c10_picks : List (Nat × Nat) := (List.range 30).map (fun i => (0, i + 1))

def c10_r1 : List String :=
  ["t1", "t2", "t3", "t4", "t5", "t6", "t7", "t8", "t9", "t10",
    "t11", "t12", "t13", "t14", "t15"]

def c10_r2 : List String :=
  ["t16", "t17", "t18", "t19", "t20", "t21", "t22", "t23", "t24", "t25",
    "t26", "t27", "t28", "t29", "t30"]

theorem c10_witness : c10_r1.length = 15 ∧ c10_r2.length = 15 ∧ c10_picks.Nodup :=
  c10_draw_initial c10_tiles c10_picks c10_r1 c10_r2 c10_picks (by decide)

end Rummikub
